import Mathlib

/-!
Verification development for the bucket database of a distributed
content-storage node (Vespa storage/distributor), together with two small
collaborator utilities (FileConfigReader, RealClock).

The bucket database engine itself (BTreeBucketDatabase) is exercised by the
test file in the repository but its implementation is not part of the given
sources, so the data model and operations below are modelled from the
specification text (hierarchical BucketId keys, BucketInfo replica sets,
an ordered map keyed by the BucketId integer encoding, snapshot read
guards, and a pause/resume gate).  FileConfigReader and RealClock are
embedded from their source files.
-/

namespace Vespa

/-- Modelled from the spec: a BucketId is a 64-bit hierarchical key, a
used-bits count (tree depth, 0-58) together with that many significant
bits. -/
structure BucketId where
  usedBits : Nat
  bits : Nat
deriving DecidableEq, Repr

/-- Modelled from the spec: well-formedness contract of a BucketId, the
used-bits count is at most 58 and only that many bits are significant. -/
def BucketId.WF (b : BucketId) : Prop :=
  b.usedBits ≤ 58 ∧ b.bits < 2 ^ b.usedBits

instance (b : BucketId) : Decidable b.WF :=
  inferInstanceAs (Decidable (b.usedBits ≤ 58 ∧ b.bits < 2 ^ b.usedBits))

/-- Modelled from the spec: the canonical integer encoding of a BucketId.
The significant bits are packed at the top of the key so that all keys
sharing a bit pattern at the front sort adjacently; the used-bits count is
folded into the remaining low bits. -/
def BucketId.toKey (b : BucketId) : Nat :=
  b.bits * 2 ^ (64 - b.usedBits) + b.usedBits

/-- Modelled from the spec: bucket a is an ancestor of bucket b iff
a.usedBits < b.usedBits and the top a.usedBits bits of b match the bits
of a exactly. -/
def BucketId.isAncestorOf (a b : BucketId) : Bool :=
  decide (a.usedBits < b.usedBits) && (b.bits >>> (b.usedBits - a.usedBits) == a.bits)

/-- Modelled from the spec: the ancestor of b at depth k (for k at most
b.usedBits), obtained by keeping the top k significant bits of b. -/
def BucketId.ancestorAt (b : BucketId) (k : Nat) : BucketId :=
  ⟨k, b.bits >>> (b.usedBits - k)⟩

/-- Modelled from the spec: the ancestors of a bucket from the root down
to the bucket itself, in root-to-leaf order. -/
def BucketId.ancestors_and_self (b : BucketId) : List BucketId :=
  (List.range (b.usedBits + 1)).map b.ancestorAt

/-- Modelled from the spec: the (checksum, document-count, size) triple a
storage node reports for a bucket. -/
structure ApiBucketInfo where
  checksum : Nat
  docCount : Nat
  totalSize : Nat
deriving DecidableEq, Repr

/-- Modelled from the spec: one storage node's reported state for a
bucket: node index, metadata triple, and a trust flag. -/
structure BucketCopy where
  timestamp : Nat
  node : Nat
  info : ApiBucketInfo
  trusted : Bool
deriving DecidableEq, Repr

def BucketCopy.setTrusted (c : BucketCopy) (t : Bool) : BucketCopy :=
  { c with trusted := t }

/-- Modelled from the spec: an ordered collection of per-node replica
records, insertion order treated as fixed metadata order. -/
structure BucketInfo where
  copies : List BucketCopy
deriving DecidableEq, Repr

def BucketInfo.emptyInfo : BucketInfo := ⟨[]⟩

/-- Replace the first copy recorded for the node of c in place, or append
c when no copy for that node index exists. -/
def replaceCopy (c : BucketCopy) : List BucketCopy → List BucketCopy
  | [] => [c]
  | x :: xs => if x.node == c.node then c :: xs else x :: replaceCopy c xs

/-- Modelled from the spec: insert or replace the copy for the node index
of c, keyed on node index. -/
def BucketInfo.addCopy (bi : BucketInfo) (c : BucketCopy) : BucketInfo :=
  ⟨replaceCopy c bi.copies⟩

/-- Modelled from the spec: addNode inserts or replaces the copy for that
node index, marking it trusted iff its index is in the supplied set. -/
def BucketInfo.addNode (bi : BucketInfo) (c : BucketCopy) (trustedNodes : List Nat) : BucketInfo :=
  bi.addCopy (c.setTrusted (trustedNodes.contains c.node))

/-- The copy recorded for a given node index, if any. -/
def BucketInfo.getNode (bi : BucketInfo) (n : Nat) : Option BucketCopy :=
  bi.copies.find? (fun x => x.node == n)

/-- Modelled from the spec: merge combines two views of the same bucket by
per-node replacement keyed on node index, last-writer-wins per node. -/
def BucketInfo.merge (bi other : BucketInfo) : BucketInfo :=
  other.copies.foldl BucketInfo.addCopy bi

theorem find?_replaceCopy (c : BucketCopy) (n : Nat) :
    ∀ l : List BucketCopy,
      (replaceCopy c l).find? (fun x => x.node == n) =
        if c.node = n then some c else l.find? (fun x => x.node == n) := by
  intro l
  induction l with
  | nil =>
    by_cases h : c.node = n <;> simp [replaceCopy, h]
  | cons x xs ih =>
    by_cases hx : x.node = c.node
    · by_cases h : c.node = n
      · simp [replaceCopy, hx, h]
      · have hxn : ¬ x.node = n := fun hh => h (hx.symm.trans hh)
        simp [replaceCopy, hx, h, hxn]
    · by_cases hxn : x.node = n
      · have h : ¬ c.node = n := fun hh => hx (hxn.trans hh.symm)
        have hnc : ¬ n = c.node := fun hh => hx (hxn.trans hh)
        simp [replaceCopy, hx, h, hxn, hnc]
      · simp [replaceCopy, hx, hxn, ih]

theorem getNode_addCopy (bi : BucketInfo) (c : BucketCopy) (n : Nat) :
    (bi.addCopy c).getNode n = if c.node = n then some c else bi.getNode n := by
  simp [BucketInfo.addCopy, BucketInfo.getNode, find?_replaceCopy]

theorem getNode_addNode (bi : BucketInfo) (c : BucketCopy) (ts : List Nat) (n : Nat) :
    (bi.addNode c ts).getNode n =
      if c.node = n then some (c.setTrusted (ts.contains c.node)) else bi.getNode n := by
  simp [BucketInfo.addNode, getNode_addCopy, BucketCopy.setTrusted]

theorem foldl_addCopy_not_mem (n : Nat) :
    ∀ (l : List BucketCopy) (a : BucketInfo), (∀ y ∈ l, y.node ≠ n) →
      (l.foldl BucketInfo.addCopy a).getNode n = a.getNode n := by
  intro l
  induction l with
  | nil => intro a _; rfl
  | cons y l ih =>
    intro a h
    have hy : y.node ≠ n := h y (by simp)
    rw [List.foldl_cons, ih (a.addCopy y) (fun z hz => h z (by simp [hz])),
      getNode_addCopy]
    simp [hy]

theorem getNode_merge_none (a b : BucketInfo) (n : Nat) (h : b.getNode n = none) :
    (a.merge b).getNode n = a.getNode n := by
  refine foldl_addCopy_not_mem n b.copies a ?_
  intro y hy hyn
  have := List.find?_eq_none.mp h y hy
  simp [hyn] at this

theorem find?_foldl_addCopy (n : Nat) (c : BucketCopy) :
    ∀ (l : List BucketCopy) (a : BucketInfo), (l.map BucketCopy.node).Nodup →
      l.find? (fun x => x.node == n) = some c →
      (l.foldl BucketInfo.addCopy a).getNode n = some c := by
  intro l
  induction l with
  | nil => intro a _ h; simp at h
  | cons y l ih =>
    intro a hnd h
    by_cases hy : y.node = n
    · have hfind : (y :: l).find? (fun x => x.node == n) = some y :=
        List.find?_cons_of_pos l (by simp [hy])
      have hc : y = c := by
        have := hfind.symm.trans h
        exact Option.some.inj this
      subst hc
      rw [List.foldl_cons]
      rw [foldl_addCopy_not_mem n l (a.addCopy y) ?later, getNode_addCopy]
      · simp [hy]
      case later =>
        intro z hz hzn
        have hymem : y.node ∈ l.map BucketCopy.node := by
          have : z.node ∈ l.map BucketCopy.node := List.mem_map_of_mem _ hz
          rw [hzn, ← hy] at this
          exact this
        simp at hnd
        exact hnd.1 z hz (hzn.trans hy.symm)
    · have h' : l.find? (fun x => x.node == n) = some c := by
        rw [List.find?_cons_of_neg l (by simp [hy])] at h
        exact h
      rw [List.foldl_cons]
      exact ih (a.addCopy y) (by simp at hnd; exact hnd.2) h'

theorem getNode_merge_some (a b : BucketInfo) (n : Nat) (c : BucketCopy)
    (hnd : (b.copies.map BucketCopy.node).Nodup) (h : b.getNode n = some c) :
    (a.merge b).getNode n = some c :=
  find?_foldl_addCopy n c b.copies a hnd h

/-- Modelled from the spec: the unit of mutation and of query results, a
BucketId paired with its BucketInfo. -/
abbrev Entry := BucketId × BucketInfo

/-- Modelled from the spec: the default BucketId; an Entry is valid iff
its BucketId differs from it. -/
def invalidBucket : BucketId := ⟨0, 0⟩

/-- Modelled from the spec: the default-constructed sentinel Entry used
for not-found results. -/
def invalidEntry : Entry := (invalidBucket, BucketInfo.emptyInfo)

def Entry.valid (e : Entry) : Bool := !(e.1 == invalidBucket)

/-- Modelled from the spec: the database is a mapping from the BucketId
integer encoding to BucketInfo, keys unique, ordered by the encoding.  It
is embedded as a list of entries strictly sorted by the key encoding. -/
abbrev Database := List Entry

def Database.emptyDb : Database := ([] : List Entry)

namespace BucketDatabase

/-- Insert an entry into a key-sorted entry list, replacing the entry
with the same key encoding when present. -/
def upsert (e : Entry) : Database → Database
  | [] => [e]
  | x :: xs =>
    if e.1.toKey < x.1.toKey then e :: x :: xs
    else if e.1.toKey = x.1.toKey then e :: xs
    else x :: upsert e xs

/-- Modelled from the spec: update inserts or overwrites the value at the
key of the entry; earlier read guards keep the predecessor version. -/
def update (db : Database) (e : Entry) : Database := upsert e db

/-- Modelled from the spec: remove deletes the entry if present, and is a
no-op (not an error) when the key is absent. -/
def remove (db : Database) (b : BucketId) : Database :=
  db.filter (fun e => !(e.1.toKey == b.toKey))

/-- Modelled from the spec: exact-key lookup against the live version. -/
def get (db : Database) (b : BucketId) : Option Entry :=
  db.find? (fun e => e.1.toKey == b.toKey)

/-- Facade lookup returning the sentinel invalid Entry for not-found. -/
def getEntry (db : Database) (b : BucketId) : Entry :=
  (get db b).getD invalidEntry

/-- Modelled from the spec: append, in root-to-leaf order, every existing
Entry whose key is an ancestor of the given bucket or equals it. -/
def find_parents_and_self (db : Database) (b : BucketId) : List Entry :=
  b.ancestors_and_self.filterMap (get db)

/-- Modelled from the spec: like find_parents_and_self but also including
the strict descendants of the bucket that exist in the database. -/
def find_all (db : Database) (b : BucketId) : List Entry :=
  find_parents_and_self db b ++ db.filter (fun e => b.isAncestorOf e.1)

end BucketDatabase

/-- Modelled from the spec: an immutable view capturing the version of
the structure that existed at acquisition instant. -/
structure ReadGuard where
  snapshot : Database
deriving DecidableEq, Repr

/-- Modelled from the spec: captures the current version; the guard
retains the acquired version only. -/
def acquire_read_guard (db : Database) : ReadGuard := ⟨db⟩

def ReadGuard.get (g : ReadGuard) (b : BucketId) : Option Entry :=
  BucketDatabase.get g.snapshot b

def ReadGuard.find_parents_and_self (g : ReadGuard) (b : BucketId) : List Entry :=
  BucketDatabase.find_parents_and_self g.snapshot b

def ReadGuard.find_all (g : ReadGuard) (b : BucketId) : List Entry :=
  BucketDatabase.find_all g.snapshot b

/-- A mutation of the live database: update or remove. -/
inductive Op where
  | update (e : Entry)
  | remove (b : BucketId)
deriving DecidableEq, Repr

def Op.WF : Op → Prop
  | .update e => e.1.WF
  | .remove _ => True

instance (op : Op) : Decidable op.WF :=
  match op with
  | .update e => inferInstanceAs (Decidable e.1.WF)
  | .remove _ => inferInstanceAs (Decidable True)

def applyOp (db : Database) : Op → Database
  | .update e => BucketDatabase.update db e
  | .remove b => BucketDatabase.remove db b

def applyOps (db : Database) (ops : List Op) : Database :=
  ops.foldl applyOp db

/-- Modelled from the spec: a writer session holding the live database
next to one previously acquired read guard; mutations step the live
database only, the guard keeps the version captured at acquisition. -/
structure Session where
  live : Database
  guard : ReadGuard
deriving DecidableEq, Repr

def Session.start (db : Database) : Session := ⟨db, acquire_read_guard db⟩

def Session.step (s : Session) (op : Op) : Session := ⟨applyOp s.live op, s.guard⟩

def Session.run (s : Session) (ops : List Op) : Session := ops.foldl Session.step s

/-- Modelled from the spec: the database well-formedness invariant, the
entry list strictly sorted by the key encoding and every stored BucketId
within the caller contract. -/
def Database.WFdb (db : Database) : Prop :=
  db.Pairwise (fun x y => x.1.toKey < y.1.toKey) ∧ ∀ e ∈ db, e.1.WF

instance (db : Database) : Decidable db.WFdb :=
  inferInstanceAs
    (Decidable (db.Pairwise (fun x y : Entry => x.1.toKey < y.1.toKey) ∧ ∀ e ∈ db, e.1.WF))

namespace BucketDatabase

theorem mem_upsert (e : Entry) :
    ∀ (db : Database) (y : Entry), y ∈ upsert e db → y = e ∨ y ∈ db := by
  intro db
  induction db with
  | nil => intro y hy; simp [upsert] at hy; exact Or.inl hy
  | cons x xs ih =>
    intro y hy
    by_cases h1 : e.1.toKey < x.1.toKey
    · simp [upsert, h1] at hy
      rcases hy with hy | hy | hy
      · exact Or.inl hy
      · exact Or.inr (by simp [hy])
      · exact Or.inr (by simp [hy])
    · by_cases h2 : e.1.toKey = x.1.toKey
      · simp [upsert, h1, h2] at hy
        rcases hy with hy | hy
        · exact Or.inl hy
        · exact Or.inr (by simp [hy])
      · simp [upsert, h1, h2] at hy
        rcases hy with hy | hy
        · exact Or.inr (by simp [hy])
        · rcases ih y hy with hh | hh
          · exact Or.inl hh
          · exact Or.inr (by simp [hh])

theorem get_nil (b : BucketId) : get Database.emptyDb b = none := rfl

theorem get_cons_hit (x : Entry) (xs : List Entry) (b : BucketId)
    (h : x.1.toKey = b.toKey) : get (x :: xs) b = some x := by
  rw [get]
  exact List.find?_cons_of_pos xs (by simp [h])

theorem get_cons_miss (x : Entry) (xs : List Entry) (b : BucketId)
    (h : x.1.toKey ≠ b.toKey) : get (x :: xs) b = get xs b := by
  rw [get, get]
  exact List.find?_cons_of_neg xs (by simp [h])

theorem pairwise_upsert (e : Entry) :
    ∀ db : Database, db.Pairwise (fun x y => x.1.toKey < y.1.toKey) →
      (upsert e db).Pairwise (fun x y => x.1.toKey < y.1.toKey) := by
  intro db
  induction db with
  | nil => intro _; simp [upsert]
  | cons x xs ih =>
    intro h
    rw [List.pairwise_cons] at h
    by_cases h1 : e.1.toKey < x.1.toKey
    · simp only [upsert, if_pos h1]
      rw [List.pairwise_cons]
      refine ⟨?_, List.pairwise_cons.mpr h⟩
      intro y hy
      rcases List.mem_cons.mp hy with hh | hh
      · rw [hh]; exact h1
      · exact lt_trans h1 (h.1 y hh)
    · by_cases h2 : e.1.toKey = x.1.toKey
      · simp only [upsert, if_neg h1, if_pos h2]
        rw [List.pairwise_cons]
        exact ⟨fun y hy => h2 ▸ h.1 y hy, h.2⟩
      · simp only [upsert, if_neg h1, if_neg h2]
        rw [List.pairwise_cons]
        refine ⟨?_, ih h.2⟩
        intro y hy
        rcases mem_upsert e xs y hy with hh | hh
        · rw [hh]
          exact lt_of_le_of_ne (not_lt.mp h1) (fun hk => h2 hk.symm)
        · exact h.1 y hh

theorem get_upsert_self (e : Entry) :
    ∀ db : Database, get (upsert e db) e.1 = some e := by
  intro db
  induction db with
  | nil => exact get_cons_hit e [] e.1 rfl
  | cons x xs ih =>
    by_cases h1 : e.1.toKey < x.1.toKey
    · simp only [upsert, if_pos h1]
      exact get_cons_hit e (x :: xs) e.1 rfl
    · by_cases h2 : e.1.toKey = x.1.toKey
      · simp only [upsert, if_neg h1, if_pos h2]
        exact get_cons_hit e xs e.1 rfl
      · simp only [upsert, if_neg h1, if_neg h2]
        rw [get_cons_miss x (upsert e xs) e.1 (fun hh => h2 hh.symm)]
        exact ih

theorem get_upsert_other (e : Entry) (b : BucketId) (hne : b.toKey ≠ e.1.toKey) :
    ∀ db : Database, get (upsert e db) b = get db b := by
  intro db
  have he : e.1.toKey ≠ b.toKey := fun hh => hne hh.symm
  induction db with
  | nil =>
    show get [e] b = get [] b
    rw [get_cons_miss e [] b he]
  | cons x xs ih =>
    by_cases h1 : e.1.toKey < x.1.toKey
    · simp only [upsert, if_pos h1]
      rw [get_cons_miss e (x :: xs) b he]
    · by_cases h2 : e.1.toKey = x.1.toKey
      · simp only [upsert, if_neg h1, if_pos h2]
        have hx : x.1.toKey ≠ b.toKey := fun hh => he (h2.trans hh)
        rw [get_cons_miss e xs b he, get_cons_miss x xs b hx]
      · simp only [upsert, if_neg h1, if_neg h2]
        by_cases hx : x.1.toKey = b.toKey
        · rw [get_cons_hit x (upsert e xs) b hx, get_cons_hit x xs b hx]
        · rw [get_cons_miss x (upsert e xs) b hx, get_cons_miss x xs b hx]
          exact ih

theorem get_eq_none_iff (db : Database) (b : BucketId) :
    get db b = none ↔ ∀ e ∈ db, e.1.toKey ≠ b.toKey := by
  rw [get, List.find?_eq_none]
  constructor
  · intro h e he
    have := h e he
    simpa using this
  · intro h e he
    simpa using h e he

theorem remove_absent (db : Database) (b : BucketId) (h : get db b = none) :
    remove db b = db := by
  rw [remove, List.filter_eq_self]
  intro e he
  have := (get_eq_none_iff db b).mp h e he
  simpa using this

theorem get_remove_self (db : Database) (b : BucketId) :
    get (remove db b) b = none := by
  rw [get, List.find?_eq_none]
  intro e he
  rw [remove, List.mem_filter] at he
  simpa using he.2

theorem get_of_mem (db : Database) (e : Entry)
    (hs : db.Pairwise (fun x y => x.1.toKey < y.1.toKey)) (he : e ∈ db) :
    get db e.1 = some e := by
  induction db with
  | nil => simp at he
  | cons x xs ih =>
    rw [List.pairwise_cons] at hs
    rcases List.mem_cons.mp he with hh | hh
    · rw [hh]
      exact get_cons_hit x xs x.1 rfl
    · have hx : x.1.toKey ≠ e.1.toKey := ne_of_lt (hs.1 e hh)
      rw [get_cons_miss x xs e.1 hx]
      exact ih hs.2 hh

end BucketDatabase

theorem toKey_split (c : BucketId) (hc : c.usedBits ≤ 58) :
    c.toKey = c.usedBits + 64 * (c.bits * 2 ^ (58 - c.usedBits)) := by
  rw [BucketId.toKey]
  have h64 : 64 - c.usedBits = 6 + (58 - c.usedBits) := by omega
  rw [h64, pow_add]
  norm_num
  ring

theorem toKey_inj (a b : BucketId) (ha : a.WF) (hb : b.WF) (h : a.toKey = b.toKey) :
    a = b := by
  obtain ⟨ha58, habits⟩ := ha
  obtain ⟨hb58, hbbits⟩ := hb
  have h1 := toKey_split a ha58
  have h2 := toKey_split b hb58
  have hu : a.usedBits = b.usedBits := by
    rw [h1, h2] at h
    omega
  have hbits : a.bits = b.bits := by
    rw [BucketId.toKey, BucketId.toKey, hu] at h
    have hc := Nat.add_right_cancel h
    exact Nat.eq_of_mul_eq_mul_right (pow_pos (by norm_num) _) hc
  cases a; cases b
  simp only at hu hbits
  simp [hu, hbits]

theorem ancestorAt_WF (b : BucketId) (hb : b.WF) (k : Nat) (hk : k ≤ b.usedBits) :
    (b.ancestorAt k).WF := by
  refine ⟨le_trans hk hb.1, ?_⟩
  show b.bits >>> (b.usedBits - k) < 2 ^ k
  rw [Nat.shiftRight_eq_div_pow]
  apply Nat.div_lt_of_lt_mul
  calc b.bits < 2 ^ b.usedBits := hb.2
    _ = 2 ^ (b.usedBits - k) * 2 ^ k := by rw [← pow_add]; congr 1; omega

theorem ancestorAt_self (b : BucketId) : b.ancestorAt b.usedBits = b := by
  cases b with
  | mk u v => simp [BucketId.ancestorAt]

theorem usedBits_ancestorAt (b : BucketId) (k : Nat) :
    (b.ancestorAt k).usedBits = k := rfl

theorem isAncestorOf_ancestorAt (b : BucketId) (k : Nat) (hk : k < b.usedBits) :
    (b.ancestorAt k).isAncestorOf b = true := by
  simp [BucketId.isAncestorOf, BucketId.ancestorAt, hk]

theorem eq_ancestorAt_of_isAncestorOf (a b : BucketId) (h : a.isAncestorOf b = true) :
    a = b.ancestorAt a.usedBits := by
  simp [BucketId.isAncestorOf] at h
  cases a with
  | mk u v =>
    simp [BucketId.ancestorAt]
    exact h.2.symm

theorem usedBits_lt_of_isAncestorOf (a b : BucketId) (h : a.isAncestorOf b = true) :
    a.usedBits < b.usedBits := by
  simp [BucketId.isAncestorOf] at h
  exact h.1

namespace BucketDatabase

theorem get_ancestor_entry (db : Database) (b : BucketId) (k : Nat) (e : Entry)
    (hdb : Database.WFdb db) (hb : b.WF) (hk : k ≤ b.usedBits)
    (h : get db (b.ancestorAt k) = some e) : e ∈ db ∧ e.1 = b.ancestorAt k := by
  have hmem : e ∈ db := List.mem_of_find?_eq_some h
  have hkey := List.find?_some h
  have hkeq : e.1.toKey = (b.ancestorAt k).toKey := by simpa using hkey
  exact ⟨hmem, toKey_inj _ _ (hdb.2 e hmem) (ancestorAt_WF b hb k hk) hkeq⟩

theorem mem_find_parents_and_self (db : Database) (b : BucketId)
    (hdb : Database.WFdb db) (hb : b.WF) (e : Entry) :
    e ∈ find_parents_and_self db b ↔
      e ∈ db ∧ (e.1.isAncestorOf b = true ∨ e.1 = b) := by
  rw [find_parents_and_self, BucketId.ancestors_and_self]
  constructor
  · intro h
    rw [List.mem_filterMap] at h
    obtain ⟨a, ha, hget⟩ := h
    rw [List.mem_map] at ha
    obtain ⟨k, hk, rfl⟩ := ha
    rw [List.mem_range] at hk
    have hk' : k ≤ b.usedBits := Nat.lt_succ_iff.mp hk
    obtain ⟨hmem, heq⟩ := get_ancestor_entry db b k e hdb hb hk' hget
    refine ⟨hmem, ?_⟩
    rcases Nat.lt_or_ge k b.usedBits with hlt | hge
    · exact Or.inl (heq ▸ isAncestorOf_ancestorAt b k hlt)
    · have hkk : k = b.usedBits := le_antisymm hk' hge
      exact Or.inr (by rw [heq, hkk, ancestorAt_self])
  · intro h
    obtain ⟨hmem, hrel⟩ := h
    rw [List.mem_filterMap]
    rcases hrel with hanc | hself
    · have heq : e.1 = b.ancestorAt e.1.usedBits := eq_ancestorAt_of_isAncestorOf e.1 b hanc
      have hlt : e.1.usedBits < b.usedBits := usedBits_lt_of_isAncestorOf e.1 b hanc
      refine ⟨b.ancestorAt e.1.usedBits, ?_, ?_⟩
      · rw [List.mem_map]
        exact ⟨e.1.usedBits, List.mem_range.mpr (by omega), rfl⟩
      · rw [← heq]
        exact get_of_mem db e hdb.1 hmem
    · refine ⟨b.ancestorAt b.usedBits, ?_, ?_⟩
      · rw [List.mem_map]
        exact ⟨b.usedBits, List.mem_range.mpr (by omega), rfl⟩
      · rw [ancestorAt_self, ← hself]
        exact get_of_mem db e hdb.1 hmem

theorem find_parents_and_self_sorted (db : Database) (b : BucketId)
    (hdb : Database.WFdb db) (hb : b.WF) :
    (find_parents_and_self db b).Pairwise (fun x y => x.1.usedBits < y.1.usedBits) := by
  rw [find_parents_and_self, BucketId.ancestors_and_self]
  suffices H : ∀ l : List Nat, (∀ k ∈ l, k ≤ b.usedBits) → l.Pairwise (· < ·) →
      ((l.map b.ancestorAt).filterMap (get db)).Pairwise
        (fun x y => x.1.usedBits < y.1.usedBits) by
    refine H _ ?_ (List.pairwise_lt_range _)
    intro k hk
    exact Nat.lt_succ_iff.mp (List.mem_range.mp hk)
  intro l
  induction l with
  | nil =>
    intro _ _
    simp
  | cons k l ih =>
    intro hbound hpw
    rw [List.pairwise_cons] at hpw
    rw [List.map_cons, List.filterMap_cons]
    cases hget : get db (b.ancestorAt k) with
    | none => exact ih (fun j hj => hbound j (by simp [hj])) hpw.2
    | some e =>
      rw [List.pairwise_cons]
      refine ⟨?_, ih (fun j hj => hbound j (by simp [hj])) hpw.2⟩
      intro y hy
      rw [List.mem_filterMap] at hy
      obtain ⟨a, ha, hgety⟩ := hy
      rw [List.mem_map] at ha
      obtain ⟨j, hj, rfl⟩ := ha
      have hjb : j ≤ b.usedBits := hbound j (by simp [hj])
      have hkb : k ≤ b.usedBits := hbound k (by simp)
      have he := (get_ancestor_entry db b k e hdb hb hkb hget).2
      have hye := (get_ancestor_entry db b j y hdb hb hjb hgety).2
      rw [he, hye, usedBits_ancestorAt, usedBits_ancestorAt]
      exact hpw.1 j hj

theorem find_parents_and_self_nil (b : BucketId) :
    find_parents_and_self Database.emptyDb b = [] := by
  rw [find_parents_and_self]
  induction b.ancestors_and_self with
  | nil => rfl
  | cons a l ih =>
    rw [List.filterMap_cons]
    simp only [get_nil]
    exact ih

end BucketDatabase

theorem run_guard (ops : List Op) : ∀ s : Session, (s.run ops).guard = s.guard := by
  induction ops with
  | nil => intro s; rfl
  | cons op ops ih =>
    intro s
    show ((s.step op).run ops).guard = s.guard
    rw [ih (s.step op)]
    rfl

theorem run_live (ops : List Op) : ∀ s : Session, (s.run ops).live = applyOps s.live ops := by
  induction ops with
  | nil => intro s; rfl
  | cons op ops ih =>
    intro s
    show ((s.step op).run ops).live = applyOps s.live (op :: ops)
    rw [ih (s.step op)]
    rfl

namespace BucketDatabase

theorem WFdb_emptyDb : Database.WFdb Database.emptyDb :=
  ⟨List.Pairwise.nil, by intro e he; simp [Database.emptyDb] at he⟩

theorem WFdb_update (db : Database) (e : Entry) (hdb : Database.WFdb db) (he : e.1.WF) :
    Database.WFdb (update db e) := by
  refine ⟨pairwise_upsert e db hdb.1, ?_⟩
  intro y hy
  rcases mem_upsert e db y hy with hh | hh
  · rw [hh]; exact he
  · exact hdb.2 y hh

theorem WFdb_remove (db : Database) (b : BucketId) (hdb : Database.WFdb db) :
    Database.WFdb (remove db b) := by
  refine ⟨hdb.1.filter _, ?_⟩
  intro y hy
  exact hdb.2 y (List.mem_filter.mp hy).1

theorem WFdb_applyOp (db : Database) (op : Op) (hop : op.WF) (hdb : Database.WFdb db) :
    Database.WFdb (applyOp db op) := by
  cases op with
  | update e => exact WFdb_update db e hdb hop
  | remove b => exact WFdb_remove db b hdb

theorem WFdb_applyOps (ops : List Op) :
    ∀ db : Database, (∀ op ∈ ops, op.WF) → Database.WFdb db →
      Database.WFdb (applyOps db ops) := by
  induction ops with
  | nil => intro db _ hdb; exact hdb
  | cons op ops ih =>
    intro db hops hdb
    show Database.WFdb (applyOps (applyOp db op) ops)
    exact ih _ (fun o ho => hops o (by simp [ho]))
      (WFdb_applyOp db op (hops op (by simp)) hdb)

end BucketDatabase

/-- Modelled from the spec: the full iteration over the live database, a
restartable sequence of entries in key order. -/
def iterate (db : Database) : List Entry := db

/-- Modelled from the spec: a fresh full iteration started at a given
key, the entries whose key encoding is at least that key, in order. -/
def iterateFrom (db : Database) (k : Nat) : List Entry :=
  db.filter (fun e => decide (k ≤ e.1.toKey))

/-- Modelled from the spec: resuming iteration from a given key by
skipping the already-processed chunk of smaller keys. -/
def resumeFrom (db : Database) (k : Nat) : List Entry :=
  db.dropWhile (fun e => decide (e.1.toKey < k))

theorem resumeFrom_eq_iterateFrom (db : Database)
    (hs : db.Pairwise (fun x y => x.1.toKey < y.1.toKey)) (k : Nat) :
    resumeFrom db k = iterateFrom db k := by
  induction db with
  | nil => rfl
  | cons x xs ih =>
    rw [List.pairwise_cons] at hs
    by_cases hx : x.1.toKey < k
    · rw [resumeFrom, List.dropWhile_cons_of_pos (by simpa using hx),
        iterateFrom, List.filter_cons_of_neg (by simpa using not_le.mpr hx)]
      exact ih hs.2
    · rw [resumeFrom, List.dropWhile_cons_of_neg (by simpa using hx),
        iterateFrom, List.filter_cons_of_pos (by simpa using not_lt.mp hx)]
      congr 1
      symm
      rw [List.filter_eq_self]
      intro y hy
      have : x.1.toKey < y.1.toKey := hs.1 y hy
      simp
      omega

theorem resumeFrom_suffix (db : Database) (k : Nat) : resumeFrom db k <:+ iterate db :=
  ⟨db.takeWhile (fun e => decide (e.1.toKey < k)),
    List.takeWhile_append_dropWhile (fun e => decide (e.1.toKey < k)) db⟩

/-- The helper BC of the test file: a BucketCopy for a node with the
given state, checksum 0x123 and timestamp 0. -/
def BC (node state : Nat) : BucketCopy := ⟨0, node, ⟨0x123, state, state⟩, false⟩

/-- The helper BI of the test file: a BucketInfo holding the single copy
BC node state, added with trusted-node set containing only node 0. -/
def BI (node state : Nat) : BucketInfo :=
  BucketInfo.emptyInfo.addNode (BC node state) [0]

/-- The bucket BucketId(16, 16) used by the read-guard tests. -/
def b16 : BucketId := ⟨16, 16⟩

/-- Modelled from the spec: the observable events of the storage-node
pause gate declared by StorageNode::pause.  pauseEv is a call returning a
ResumeGuard token, resumeEv is the release of the most recent live token,
persistCall is a call made towards the persistence provider. -/
inductive MaintEvent where
  | pauseEv
  | resumeEv
  | persistCall
deriving DecidableEq, Repr

/-- Number of ResumeGuard tokens alive after processing the trace from a
starting count. -/
def pauseDepth (d : Nat) : List MaintEvent → Nat
  | [] => d
  | .pauseEv :: t => pauseDepth (d + 1) t
  | .resumeEv :: t => pauseDepth (d - 1) t
  | .persistCall :: t => pauseDepth d t

/-- Modelled from the spec: a trace the storage node may produce, with
the given count of alive ResumeGuard tokens at its start.  While any
ResumeGuard is alive no call is made towards the persistence provider:
a persistCall is legal only at token count zero. -/
def validTrace : List MaintEvent → Nat → Bool
  | [], _ => true
  | .pauseEv :: t, d => validTrace t (d + 1)
  | .resumeEv :: t, d => validTrace t (d - 1)
  | .persistCall :: t, d => (d == 0) && validTrace t d

theorem validTrace_append (a : List MaintEvent) :
    ∀ (b : List MaintEvent) (d : Nat),
      validTrace (a ++ b) d = (validTrace a d && validTrace b (pauseDepth d a)) := by
  induction a with
  | nil =>
    intro b d
    simp [validTrace, pauseDepth]
  | cons e t ih =>
    intro b d
    cases e with
    | pauseEv => simp only [List.cons_append, validTrace, pauseDepth]; exact ih b (d + 1)
    | resumeEv => simp only [List.cons_append, validTrace, pauseDepth]; exact ih b (d - 1)
    | persistCall =>
      simp only [List.cons_append, validTrace, pauseDepth, List.append_eq]
      rw [ih b d, Bool.and_assoc]

theorem no_persist_of_paused :
    ∀ (t : List MaintEvent) (d : Nat), validTrace t d = true → 1 ≤ d →
      (∀ p : List MaintEvent, p <+: t →
        p.count MaintEvent.resumeEv ≤ p.count MaintEvent.pauseEv + (d - 1)) →
      MaintEvent.persistCall ∉ t := by
  intro t
  induction t with
  | nil =>
    intro d _ _ _
    simp
  | cons e t ih =>
    intro d hv hd hp
    cases e with
    | pauseEv =>
      have hrec : MaintEvent.persistCall ∉ t := by
        refine ih (d + 1) hv (by omega) ?_
        intro p hpre
        have := hp (MaintEvent.pauseEv :: p) (by
          obtain ⟨r, hr⟩ := hpre
          exact ⟨r, by rw [List.cons_append, hr]⟩)
        simp [List.count_cons] at this
        simp
        omega
      simp [hrec]
    | resumeEv =>
      have hone := hp [MaintEvent.resumeEv] ⟨t, rfl⟩
      simp [List.count_cons, List.count_nil] at hone
      have hrec : MaintEvent.persistCall ∉ t := by
        refine ih (d - 1) hv (by omega) ?_
        intro p hpre
        have := hp (MaintEvent.resumeEv :: p) (by
          obtain ⟨r, hr⟩ := hpre
          exact ⟨r, by rw [List.cons_append, hr]⟩)
        simp [List.count_cons] at this
        omega
      simp [hrec]
    | persistCall =>
      rw [validTrace, Bool.and_eq_true] at hv
      have : d = 0 := by simpa using hv.1
      omega

/-- Modelled from the spec: the file system visible to FileConfigReader,
a name-to-content mapping with content as the list of lines. -/
abbrev FileSystem := List (String × List String)

def lookupFile (fs : FileSystem) (name : String) : Option (List String) :=
  (fs.find? (fun p => p.1 == name)).map Prod.snd

/-- The exceptions FileConfigReader::read can raise: ConfigReadException
from the formatter overload, IllegalArgumentException from the
no-argument overload. -/
inductive ConfigError where
  | configRead (msg : String)
  | illegalArgument (msg : String)
deriving DecidableEq, Repr

/-- The config value built by the no-argument FileConfigReader::read: the
lines of the file in file order. -/
structure ConfigValue where
  lines : List String
deriving DecidableEq, Repr

namespace FileConfigReader

/-- FileConfigReader::read(): opens the file, raising
IllegalArgumentException when that fails, otherwise reads all lines in
order and builds the config from them. -/
def read (fs : FileSystem) (fileName : String) : Except ConfigError ConfigValue :=
  match lookupFile fs fileName with
  | none => .error (.illegalArgument ("Unable to open file " ++ fileName))
  | some ls => .ok ⟨ls⟩

/-- FileConfigReader::read(formatter): opens the file, raising
ConfigReadException when that fails, otherwise decodes the whole content
through the formatter and builds the config from the decoded buffer. -/
def readFormatted (decode : List String → ConfigValue) (fs : FileSystem)
    (fileName : String) : Except ConfigError ConfigValue :=
  match lookupFile fs fileName with
  | none => .error (.configRead ("error: unable to read file " ++ fileName))
  | some ls => .ok (decode ls)

end FileConfigReader

/-- RealClock::getTimeInMicros: tv_sec * 1000000llu + tv_usec in unsigned
64-bit arithmetic, so wrapping modulo 2 to the 64. -/
def getTimeInMicros (tv_sec tv_usec : Nat) : Nat :=
  (tv_sec * 1000000 + tv_usec) % 2 ^ 64

/-- RealClock::getTimeInSeconds: the tv_sec field of the clock reading. -/
def getTimeInSeconds (tv_sec : Nat) : Nat :=
  tv_sec % 2 ^ 64

/-- Claim C1: for every database state, every sequence of update/remove
operations applied to the live database after acquiring a read guard, and
every bucket, the queries get, find_parents_and_self and find_all issued
through the guard return exactly what they would have returned against
the database state at the instant of acquisition, while the live database
has moved to the mutated state; in particular a guard acquired on an
empty database returns an empty sequence from find_parents_and_self for
any bucket, even after a subsequent update of that very bucket. -/
theorem claim_C1 (db : Database) (ops : List Op) (b : BucketId) (i : BucketInfo) :
    (((Session.start db).run ops).guard.get b = BucketDatabase.get db b
      ∧ ((Session.start db).run ops).guard.find_parents_and_self b
          = BucketDatabase.find_parents_and_self db b
      ∧ ((Session.start db).run ops).guard.find_all b = BucketDatabase.find_all db b
      ∧ ((Session.start db).run ops).live = applyOps db ops)
    ∧ ((Session.start Database.emptyDb).run
          [Op.update (b, i)]).guard.find_parents_and_self b = [] := by
  refine ⟨⟨?_, ?_, ?_, ?_⟩, ?_⟩
  · rw [run_guard]; rfl
  · rw [run_guard]; rfl
  · rw [run_guard]; rfl
  · rw [run_live]; rfl
  · rw [run_guard]
    exact BucketDatabase.find_parents_and_self_nil b

/-- Claim C2: starting from an empty database, after updating
BucketId(16,16) with the info BI(1,1234), get returns that entry; after
acquiring a read guard and removing the bucket, get on the live database
returns absent while the guard still finds exactly one entry through
find_parents_and_self, whose BucketInfo equals the pre-removal one. -/
theorem claim_C2 :
    BucketDatabase.get (BucketDatabase.update Database.emptyDb (b16, BI 1 1234)) b16
        = some (b16, BI 1 1234)
    ∧ BucketDatabase.get
        (((Session.start (BucketDatabase.update Database.emptyDb (b16, BI 1 1234))).run
          [Op.remove b16]).live) b16 = none
    ∧ ((Session.start (BucketDatabase.update Database.emptyDb (b16, BI 1 1234))).run
          [Op.remove b16]).guard.find_parents_and_self b16 = [(b16, BI 1 1234)]
    ∧ (((Session.start (BucketDatabase.update Database.emptyDb (b16, BI 1 1234))).run
          [Op.remove b16]).guard.find_parents_and_self b16).map Prod.snd
        = [BI 1 1234] := by
  decide

/-- Claim C3: on every well-formed database state and well-formed bucket,
find_parents_and_self returns exactly the existing entries whose key
equals the bucket or is an ancestor of it, in root-to-leaf order, and no
entry that is neither an ancestor nor the bucket itself. -/
theorem claim_C3 (db : Database) (b : BucketId) (e : Entry)
    (hdb : Database.WFdb db) (hb : b.WF) :
    (e ∈ BucketDatabase.find_parents_and_self db b ↔
      e ∈ db ∧ (e.1.isAncestorOf b = true ∨ e.1 = b))
    ∧ (BucketDatabase.find_parents_and_self db b).Pairwise
        (fun x y => x.1.usedBits < y.1.usedBits) :=
  ⟨BucketDatabase.mem_find_parents_and_self db b hdb hb e,
    BucketDatabase.find_parents_and_self_sorted db b hdb hb⟩

/-- Witness for claim C3 at a concrete database holding the single entry
for BucketId(16,16), queried with that same bucket. -/
theorem claim_C3_witness :
    Database.WFdb [(b16, BI 1 1234)] ∧ b16.WF
    ∧ (((b16, BI 1 1234) ∈ BucketDatabase.find_parents_and_self [(b16, BI 1 1234)] b16 ↔
        (b16, BI 1 1234) ∈ [(b16, BI 1 1234)]
          ∧ ((b16, BI 1 1234).1.isAncestorOf b16 = true ∨ (b16, BI 1 1234).1 = b16))
      ∧ (BucketDatabase.find_parents_and_self [(b16, BI 1 1234)] b16).Pairwise
          (fun x y => x.1.usedBits < y.1.usedBits)) :=
  ⟨by decide, by decide,
    claim_C3 [(b16, BI 1 1234)] b16 (b16, BI 1 1234) (by decide) (by decide)⟩

/-- Claim C4: addNode inserts a copy for the node index if absent and
replaces the existing copy for that node index if present, marking it
trusted iff the index is in the supplied trusted set; a later addNode for
a node index supersedes the earlier one, and merge is last-writer-wins
per node index and not commutative across conflicting same-node
updates. -/
theorem claim_C4 :
    (∀ (bi : BucketInfo) (c : BucketCopy) (ts : List Nat) (n : Nat),
      ((bi.addNode c ts).getNode c.node = some (c.setTrusted (ts.contains c.node)))
      ∧ (n ≠ c.node → (bi.addNode c ts).getNode n = bi.getNode n))
    ∧ (∀ (bi : BucketInfo) (c1 c2 : BucketCopy) (ts1 ts2 : List Nat),
        c1.node = c2.node →
        ((bi.addNode c1 ts1).addNode c2 ts2).getNode c2.node
          = some (c2.setTrusted (ts2.contains c2.node)))
    ∧ (∀ (a b : BucketInfo) (n : Nat) (c : BucketCopy),
        ((b.copies.map BucketCopy.node).Nodup → b.getNode n = some c →
          (a.merge b).getNode n = some c)
        ∧ (b.getNode n = none → (a.merge b).getNode n = a.getNode n))
    ∧ BucketInfo.merge (BI 1 10) (BI 1 20) ≠ BucketInfo.merge (BI 1 20) (BI 1 10) := by
  refine ⟨?_, ?_, ?_, by decide⟩
  · intro bi c ts n
    constructor
    · rw [getNode_addNode]
      simp
    · intro hn
      rw [getNode_addNode, if_neg (fun hh => hn hh.symm)]
  · intro bi c1 c2 ts1 ts2 _
    rw [getNode_addNode]
    simp
  · intro a b n c
    exact ⟨fun hnd h => getNode_merge_some a b n c hnd h,
      fun h => getNode_merge_none a b n h⟩

/-- Witness for claim C4 at concrete copies for node index 1. -/
theorem claim_C4_witness :
    (BucketInfo.emptyInfo.addNode (BC 2 10) [0]).getNode 1
        = BucketInfo.emptyInfo.getNode 1
    ∧ ((BucketInfo.emptyInfo.addNode (BC 1 10) [0]).addNode (BC 1 20) [0]).getNode 1
        = some ((BC 1 20).setTrusted false)
    ∧ ((BI 2 7).merge (BI 1 20)).getNode 1 = some ((BC 1 20).setTrusted false)
    ∧ ((BI 2 7).merge (BI 1 20)).getNode 3 = (BI 2 7).getNode 3 :=
  ⟨(claim_C4.1 BucketInfo.emptyInfo (BC 2 10) [0] 1).2 (by decide),
    claim_C4.2.1 BucketInfo.emptyInfo (BC 1 10) (BC 1 20) [0] [0] (by decide),
    (claim_C4.2.2.1 (BI 2 7) (BI 1 20) 1 ((BC 1 20).setTrusted false)).1
      (by decide) (by decide),
    (claim_C4.2.2.1 (BI 2 7) (BI 1 20) 3 ((BC 1 20).setTrusted false)).2 (by decide)⟩

/-- Claim C5: removing an absent key is a no-op leaving the database (and
so every other entry) unchanged and leaving the view of a read guard
unaffected, and removing a present key followed by re-adding the same key
with different content yields the new content on subsequent live
queries. -/
theorem claim_C5 (db : Database) (b : BucketId) (i : BucketInfo) :
    (BucketDatabase.get db b = none →
      BucketDatabase.remove db b = db
      ∧ ((Session.start db).run [Op.remove b]).guard.snapshot = db)
    ∧ BucketDatabase.get
        (BucketDatabase.update (BucketDatabase.remove db b) (b, i)) b = some (b, i) := by
  constructor
  · intro h
    refine ⟨BucketDatabase.remove_absent db b h, ?_⟩
    rw [run_guard]
    rfl
  · exact BucketDatabase.get_upsert_self (b, i) (BucketDatabase.remove db b)

/-- Witness for claim C5: removing the absent bucket BucketId(17,3) from
a singleton database is a no-op, and remove-then-re-add of BucketId(16,16)
yields the new content. -/
theorem claim_C5_witness :
    BucketDatabase.get [(b16, BI 1 1234)] (⟨17, 3⟩ : BucketId) = none
    ∧ (BucketDatabase.remove [(b16, BI 1 1234)] (⟨17, 3⟩ : BucketId) = [(b16, BI 1 1234)]
      ∧ ((Session.start [(b16, BI 1 1234)]).run
          [Op.remove (⟨17, 3⟩ : BucketId)]).guard.snapshot = [(b16, BI 1 1234)])
    ∧ BucketDatabase.get
        (BucketDatabase.update (BucketDatabase.remove [(b16, BI 1 1234)] b16)
          (b16, BI 1 5678)) b16 = some (b16, BI 1 5678) :=
  ⟨by decide,
    (claim_C5 [(b16, BI 1 1234)] (⟨17, 3⟩ : BucketId) (BI 1 5678)).1 (by decide),
    (claim_C5 [(b16, BI 1 1234)] b16 (BI 1 5678)).2⟩

/-- Claim C6: on every well-formed database state a full iteration yields
the entries in non-decreasing order of the key encoding, resuming from a
key yields exactly the suffix a fresh full iteration started at that key
yields, and every database state reachable from the empty database by
well-formed operations is well-formed. -/
theorem claim_C6 (db : Database) (k : Nat) (ops : List Op) (hdb : Database.WFdb db) :
    (iterate db).Pairwise (fun x y => x.1.toKey ≤ y.1.toKey)
    ∧ resumeFrom db k = iterateFrom db k
    ∧ resumeFrom db k <:+ iterate db
    ∧ ((∀ op ∈ ops, op.WF) → Database.WFdb (applyOps Database.emptyDb ops)) := by
  refine ⟨?_, resumeFrom_eq_iterateFrom db hdb.1 k, resumeFrom_suffix db k, ?_⟩
  · exact hdb.1.imp (fun h => le_of_lt h)
  · intro hops
    exact BucketDatabase.WFdb_applyOps ops Database.emptyDb hops
      BucketDatabase.WFdb_emptyDb

/-- Witness for claim C6 at a concrete singleton database and key 5. -/
theorem claim_C6_witness :
    Database.WFdb [(b16, BI 1 1234)]
    ∧ ((iterate [(b16, BI 1 1234)]).Pairwise (fun x y => x.1.toKey ≤ y.1.toKey)
      ∧ resumeFrom [(b16, BI 1 1234)] 5 = iterateFrom [(b16, BI 1 1234)] 5
      ∧ resumeFrom [(b16, BI 1 1234)] 5 <:+ iterate [(b16, BI 1 1234)]
      ∧ ((∀ op ∈ ([] : List Op), op.WF) →
          Database.WFdb (applyOps Database.emptyDb []))) :=
  ⟨by decide, claim_C6 [(b16, BI 1 1234)] 5 [] (by decide)⟩

/-- Claim C7: a key that is not present is reported as the absent option
or the invalid sentinel Entry by get, and as an empty result sequence by
find_parents_and_self and find_all when nothing related to the bucket is
stored; an Entry is valid iff its BucketId is non-default.  All queries
are total functions of the embedding, so no exception or error signal
exists. -/
theorem claim_C7 (db : Database) (b : BucketId) (e : Entry)
    (hdb : Database.WFdb db) (hb : b.WF) :
    (BucketDatabase.get db b = none →
      BucketDatabase.getEntry db b = invalidEntry
      ∧ Entry.valid (BucketDatabase.getEntry db b) = false)
    ∧ ((∀ x ∈ db, x.1.isAncestorOf b = false ∧ x.1 ≠ b) →
        BucketDatabase.find_parents_and_self db b = [])
    ∧ ((∀ x ∈ db, x.1.isAncestorOf b = false ∧ x.1 ≠ b ∧ b.isAncestorOf x.1 = false) →
        BucketDatabase.find_all db b = [])
    ∧ (Entry.valid e = true ↔ e.1 ≠ invalidBucket) := by
  refine ⟨?_, ?_, ?_, ?_⟩
  · intro h
    constructor
    · rw [BucketDatabase.getEntry, h]
      rfl
    · rw [BucketDatabase.getEntry, h]
      decide
  · intro h
    rw [List.eq_nil_iff_forall_not_mem]
    intro x hx
    rw [BucketDatabase.mem_find_parents_and_self db b hdb hb x] at hx
    obtain ⟨hm, hrel⟩ := hx
    have hq := h x hm
    rcases hrel with hr | hr
    · rw [hq.1] at hr
      exact Bool.false_ne_true hr
    · exact hq.2 hr
  · intro h
    rw [BucketDatabase.find_all, List.append_eq_nil]
    constructor
    · rw [List.eq_nil_iff_forall_not_mem]
      intro x hx
      rw [BucketDatabase.mem_find_parents_and_self db b hdb hb x] at hx
      obtain ⟨hm, hrel⟩ := hx
      have hq := h x hm
      rcases hrel with hr | hr
      · rw [hq.1] at hr
        exact Bool.false_ne_true hr
      · exact hq.2.1 hr
    · rw [List.filter_eq_nil_iff]
      intro x hx
      rw [(h x hx).2.2]
      exact Bool.false_ne_true
  · simp [Entry.valid]

/-- Witness for claim C7 on the empty database and bucket
BucketId(16,16). -/
theorem claim_C7_witness :
    BucketDatabase.get Database.emptyDb b16 = none
    ∧ (BucketDatabase.getEntry Database.emptyDb b16 = invalidEntry
      ∧ Entry.valid (BucketDatabase.getEntry Database.emptyDb b16) = false)
    ∧ BucketDatabase.find_parents_and_self Database.emptyDb b16 = []
    ∧ BucketDatabase.find_all Database.emptyDb b16 = []
    ∧ (Entry.valid (b16, BI 1 1234) = true ↔ (b16, BI 1 1234).1 ≠ invalidBucket) := by
  have h := claim_C7 Database.emptyDb b16 (b16, BI 1 1234) (by decide) (by decide)
  exact ⟨by decide, h.1 (by decide), h.2.1 (by decide), h.2.2.1 (by decide), h.2.2.2⟩

/-- Claim C8: in every trace the storage node may produce, after a pause
call returns its ResumeGuard token, no call towards the persistence
provider occurs for as long as that token is alive (no later segment
point has seen more releases than further acquisitions). -/
theorem claim_C8 (t1 t2 : List MaintEvent)
    (hv : validTrace (t1 ++ MaintEvent.pauseEv :: t2) 0 = true)
    (halive : ∀ p : List MaintEvent, p <+: t2 →
      p.count MaintEvent.resumeEv ≤ p.count MaintEvent.pauseEv) :
    MaintEvent.persistCall ∉ t2 := by
  rw [validTrace_append, Bool.and_eq_true] at hv
  have h2 : validTrace t2 (pauseDepth 0 t1 + 1) = true := hv.2
  refine no_persist_of_paused t2 (pauseDepth 0 t1 + 1) h2 (by omega) ?_
  intro p hp
  have := halive p hp
  omega

/-- Witness for claim C8: a persistence call, then a pause with no
release; no persistence call occurs after the pause. -/
theorem claim_C8_witness :
    validTrace ([MaintEvent.persistCall] ++ MaintEvent.pauseEv :: [MaintEvent.pauseEv]) 0
        = true
    ∧ MaintEvent.persistCall ∉ [MaintEvent.pauseEv] :=
  ⟨by decide, claim_C8 [MaintEvent.persistCall] [MaintEvent.pauseEv] (by decide) (by
    intro p hp
    obtain ⟨r, hr⟩ := hp
    cases p with
    | nil => decide
    | cons a p' =>
      injection hr with h1 h2
      obtain ⟨hp', _⟩ := List.append_eq_nil.mp h2
      subst h1
      subst hp'
      decide)⟩

/-- Claim C9: each overload of FileConfigReader::read raises an exception
iff the named file cannot be opened, IllegalArgumentException for the
no-argument overload and ConfigReadException for the formatter overload;
when the file opens, the no-argument overload returns a config built from
exactly the lines of the file in file order. -/
theorem claim_C9 (fs : FileSystem) (name : String) (decode : List String → ConfigValue) :
    ((∃ err, FileConfigReader.read fs name = .error err) ↔ lookupFile fs name = none)
    ∧ ((∃ err, FileConfigReader.readFormatted decode fs name = .error err)
        ↔ lookupFile fs name = none)
    ∧ (lookupFile fs name = none →
        FileConfigReader.read fs name
            = .error (.illegalArgument ("Unable to open file " ++ name))
        ∧ FileConfigReader.readFormatted decode fs name
            = .error (.configRead ("error: unable to read file " ++ name)))
    ∧ (∀ ls, lookupFile fs name = some ls →
        FileConfigReader.read fs name = .ok ⟨ls⟩
        ∧ FileConfigReader.readFormatted decode fs name = .ok (decode ls)) := by
  cases h : lookupFile fs name with
  | none =>
    refine ⟨?_, ?_, ?_, ?_⟩ <;>
      simp [FileConfigReader.read, FileConfigReader.readFormatted, h]
  | some ls =>
    refine ⟨?_, ?_, ?_, ?_⟩ <;>
      simp [FileConfigReader.read, FileConfigReader.readFormatted, h]

/-- Witness for claim C9 on a concrete one-file file system. -/
theorem claim_C9_witness :
    lookupFile [("a.cfg", ["x", "y"])] "a.cfg" = some ["x", "y"]
    ∧ FileConfigReader.read [("a.cfg", ["x", "y"])] "a.cfg" = .ok ⟨["x", "y"]⟩
    ∧ lookupFile [("a.cfg", ["x", "y"])] "b.cfg" = none
    ∧ FileConfigReader.read [("a.cfg", ["x", "y"])] "b.cfg"
        = .error (.illegalArgument ("Unable to open file " ++ "b.cfg")) :=
  ⟨rfl,
    ((claim_C9 [("a.cfg", ["x", "y"])] "a.cfg" (fun ls => ⟨ls⟩)).2.2.2
      ["x", "y"] rfl).1,
    rfl,
    ((claim_C9 [("a.cfg", ["x", "y"])] "b.cfg" (fun ls => ⟨ls⟩)).2.2.1 rfl).1⟩

/-- Counterexample to claim C10 as stated: at the clock reading with
tv_sec = 18446744073710 and tv_usec = 0 the 64-bit product wraps, so the
returned microsecond value divided by 1000000 is not the value
getTimeInSeconds returns. -/
theorem claim_C10_counterexample :
    ¬ (getTimeInMicros 18446744073710 0 / 1000000 = getTimeInSeconds 18446744073710) := by
  decide

/-- Claim C10 as amended: for every clock reading with
0 ≤ tv_usec < 1000000 whose microsecond total does not exceed the 64-bit
range, getTimeInMicros returns tv_sec * 1000000 + tv_usec and dividing it
by 1000000 yields exactly the value getTimeInSeconds returns for the same
reading. -/
theorem claim_C10 (s u : Nat) (hu : u < 1000000) (hw : s * 1000000 + u < 2 ^ 64) :
    getTimeInMicros s u = s * 1000000 + u
    ∧ getTimeInMicros s u / 1000000 = getTimeInSeconds s
    ∧ getTimeInSeconds s = s := by
  have h1 : s ≤ s * 1000000 := Nat.le_mul_of_pos_right s (by norm_num)
  have hs : s < 2 ^ 64 := by omega
  refine ⟨?_, ?_, ?_⟩
  · rw [getTimeInMicros]
    exact Nat.mod_eq_of_lt hw
  · rw [getTimeInMicros, Nat.mod_eq_of_lt hw, getTimeInSeconds, Nat.mod_eq_of_lt hs,
      add_comm, Nat.add_mul_div_right _ _ (by norm_num : (0:Nat) < 1000000),
      Nat.div_eq_of_lt hu]
    simp
  · rw [getTimeInSeconds]
    exact Nat.mod_eq_of_lt hs

/-- Witness for the amended claim C10 at a realistic clock reading. -/
theorem claim_C10_witness :
    123456 < 1000000
    ∧ 1696000000 * 1000000 + 123456 < 2 ^ 64
    ∧ getTimeInMicros 1696000000 123456 = 1696000000 * 1000000 + 123456
    ∧ getTimeInMicros 1696000000 123456 / 1000000 = getTimeInSeconds 1696000000 :=
  ⟨by decide, by decide,
    (claim_C10 1696000000 123456 (by decide) (by decide)).1,
    (claim_C10 1696000000 123456 (by decide) (by decide)).2.1⟩

end Vespa
